import Mathlib

/-
Verification of the recursive filesystem copy engine of the jsr-modules
repository (module fs: copy / copySync) against its natural-language
specification.

The copy engine itself (copy.ts) is not part of the provided sources; only
its test file (lib/fs/src/copy_runtime_test.ts) is.  Following the rules for
such cases, the engine is modelled from the specification, with the concrete
behaviour pinned down by the repository's own tests wherever the two
disagree (the tests are authoritative code of the repository).

The embedding:
  * a canonical path is a list of name segments (the spec compares paths in
    canonical form, so the embedding works on canonical forms directly);
  * the filesystem is an inductive tree of directories, regular files
    (byte content plus access/modification times) and symbolic links
    (raw target string, never dereferenced);
  * the engine is a pure state-passing function returning either the new
    filesystem or a typed error together with the filesystem at the moment
    of failure (partial writes made before a failure persist, as the spec
    requires: no rollback).
-/

namespace Bearz

/-- Canonical filesystem path: the list of its name segments. -/
abbrev Path := List String

/-- Renders a canonical path the way error messages display it. -/
def Path.render (p : Path) : String :=
  "/" ++ String.intercalate "/" p

/-- Path q extends path p (p is an ancestor-or-equal of q). -/
def pathLe : Path → Path → Bool
  | [], _ => true
  | _ :: _, [] => false
  | a :: p, b :: q => a == b && pathLe p q

/-- Modelled from the spec: destination is canonically a strict descendant of
the source, i.e. canonical(dest) begins with canonical(src) followed by a
path separator. -/
def isUnder (src dest : Path) : Bool :=
  pathLe src dest && decide (src.length < dest.length)

/-- Two paths are incomparable: neither is an ancestor-or-equal of the other. -/
def incomp (p q : Path) : Bool :=
  !pathLe p q && !pathLe q p

/-- A filesystem entry: regular file (content, atime, mtime), symbolic link
(raw target string) or directory (named children). -/
inductive FsTree where
  | file (content : String) (atime mtime : Nat)
  | symlink (target : String)
  | dir (entries : List (String × FsTree))

/-- Entry kinds as reported by an un-followed (lstat-like) classification. -/
inductive EntryKind where
  | file
  | directory
  | symlink
deriving DecidableEq

/-- The kind of a node, lstat semantics: a symlink is a symlink regardless of
its target. -/
def FsTree.kind : FsTree → EntryKind
  | .file _ _ _ => .file
  | .symlink _ => .symlink
  | .dir _ => .directory

/-- Looks a name up in a directory entry list. -/
def lookupEntry : List (String × FsTree) → String → Option FsTree
  | [], _ => none
  | (m, t) :: es, n => if m = n then some t else lookupEntry es n

/-- Replaces the entry of a name in a directory entry list, appending a new
entry at the end when the name is absent. -/
def setEntry : List (String × FsTree) → String → FsTree → List (String × FsTree)
  | [], n, t => [(n, t)]
  | (m, c) :: es, n, t =>
      if m = n then (m, t) :: es else (m, c) :: setEntry es n t

/-- Whether a directory entry list contains a name. -/
def hasKey : List (String × FsTree) → String → Bool
  | [], _ => false
  | (m, _) :: es, n => m == n || hasKey es n

/-- Resolves a canonical path in a filesystem tree, without following
symbolic links (an intermediate non-directory stops resolution). -/
def FsTree.lookup : FsTree → Path → Option FsTree
  | t, [] => some t
  | .dir es, n :: p =>
      match lookupEntry es n with
      | some c => FsTree.lookup c p
      | none => none
  | .file _ _ _, _ :: _ => none
  | .symlink _, _ :: _ => none

/-- Writes a node at a path; every strict ancestor of the path must already
exist as a directory, otherwise the write fails. -/
def FsTree.set : FsTree → Path → FsTree → Option FsTree
  | _, [], t => some t
  | .dir es, [n], t => some (.dir (setEntry es n t))
  | .dir es, n :: m :: p, t =>
      match lookupEntry es n with
      | some c =>
          match FsTree.set c (m :: p) t with
          | some c' => some (.dir (setEntry es n c'))
          | none => none
      | none => none
  | .file _ _ _, _ :: _, _ => none
  | .symlink _, _ :: _, _ => none

/-- A chain of empty directories along a path. -/
def mkDirs : Path → FsTree
  | [] => .dir []
  | n :: p => .dir [(n, mkDirs p)]

/-- Modelled from the spec: recursive directory creation (the mkdir-recursive
collaborator used by the Directory Tree Walker to create the destination
directory and any missing parents); fails when a traversed component exists
as a non-directory. -/
def FsTree.mkdirp : FsTree → Path → Option FsTree
  | .dir es, [] => some (.dir es)
  | .dir es, n :: p =>
      match lookupEntry es n with
      | some c =>
          match FsTree.mkdirp c p with
          | some c' => some (.dir (setEntry es n c'))
          | none => none
      | none => some (.dir (setEntry es n (mkDirs p)))
  | .file _ _ _, _ => none
  | .symlink _, _ => none

/-- Modelled from the spec: recognised copy options, both defaulting to
false. -/
structure CopyOptions where
  overwrite : Bool := false
  preserveTimestamps : Bool := false

/-- Modelled from the spec: the error taxonomy of the copy engine. -/
inductive CopyError where
  | samePath (src dest : Path)
  | destinationIsSubdirectoryOfSource (src dest : Path)
  | sourceNotFound (src : Path)
  | alreadyExists (dest : Path)
  | typeMismatch (src dest : Path) (srcIsDirectory : Bool)
  | ioError (path : Path)
deriving DecidableEq

/-- Modelled from the spec: the user-visible message of each error. -/
def CopyError.message : CopyError → String
  | .samePath _ _ => "Source and destination cannot be the same."
  | .destinationIsSubdirectoryOfSource s d =>
      "Cannot copy '" ++ s.render ++ "' to a subdirectory of itself, '"
        ++ d.render ++ "'."
  | .sourceNotFound s => "No such file or directory: '" ++ s.render ++ "'."
  | .alreadyExists d => "'" ++ d.render ++ "' already exists."
  | .typeMismatch s d true =>
      "Cannot overwrite non-directory '" ++ d.render ++ "' with directory '"
        ++ s.render ++ "'."
  | .typeMismatch s d false =>
      "Cannot overwrite directory '" ++ d.render ++ "' with non-directory '"
        ++ s.render ++ "'."
  | .ioError p => "I/O error at '" ++ p.render ++ "'."

/-- Modelled from the spec: the Path Validator; rejects a self-copy and a
copy into the source's own subtree, comparing canonical forms. -/
def validate (src dest : Path) : Option CopyError :=
  if src = dest then some (.samePath src dest)
  else if isUnder src dest then
    some (.destinationIsSubdirectoryOfSource src dest)
  else none

/-- Modelled from the spec: the action the Overwrite Policy authorises. -/
inductive Action where
  | proceedFresh
  | proceedReplace
deriving DecidableEq

/-- Modelled from the spec, ordered as the repository's tests require: the
Overwrite Policy.  A missing destination proceeds fresh.  Copying a
directory onto an existing non-directory is a type mismatch even without
the overwrite option (test: rejects when copying a directory to an existent
destination that is not a directory); otherwise an existing destination
without the overwrite option is an already-exists failure; with the
overwrite option, overwriting a directory with a non-directory is the
symmetric type mismatch, and any other collision proceeds by replacement. -/
def checkDestination (fs : FsTree) (src dest : Path) (srcKind : EntryKind)
    (opts : CopyOptions) : Except CopyError Action :=
  match fs.lookup dest with
  | none => .ok .proceedFresh
  | some destNode =>
      if srcKind = .directory ∧ destNode.kind ≠ .directory then
        .error (.typeMismatch src dest true)
      else if !opts.overwrite then
        .error (.alreadyExists dest)
      else if srcKind ≠ .directory ∧ destNode.kind = .directory then
        .error (.typeMismatch src dest false)
      else
        .ok .proceedReplace

/-- Outcome of a copy run: the new filesystem, or a typed error together
with the filesystem at the moment of failure (partial writes persist). -/
inductive CResult where
  | ok (fs : FsTree)
  | err (e : CopyError) (fs : FsTree)

/-- The filesystem carried by an outcome. -/
def CResult.stateOf : CResult → FsTree
  | .ok fs => fs
  | .err _ fs => fs

/-- The error carried by an outcome, when any. -/
def CResult.errorOf : CResult → Option CopyError
  | .ok _ => none
  | .err e _ => some e

mutual

/-- The image of a freshly copied subtree: structure, byte content and
symlink targets are reproduced; file timestamps are the source's when the
preserve-timestamps option is set, the copy time otherwise. -/
def stamp (pts : Bool) (now : Nat) : FsTree → FsTree
  | .file c a m => .file c (if pts then a else now) (if pts then m else now)
  | .symlink tg => .symlink tg
  | .dir es => .dir (stampEntries pts now es)

/-- Pointwise stamp of a directory entry list. -/
def stampEntries (pts : Bool) (now : Nat) :
    List (String × FsTree) → List (String × FsTree)
  | [] => []
  | (n, c) :: es => (n, stamp pts now c) :: stampEntries pts now es

end

mutual

/-- The image of copying a source subtree onto an existing destination
subtree with the overwrite option: a source directory merges into an
existing destination directory entry by entry (collisions recurse, other
destination entries survive untouched); any non-directory source replaces
whatever stood at the destination. -/
def overlay (pts : Bool) (now : Nat) : FsTree → FsTree → FsTree
  | .dir es, .dir ds => .dir (overlayEntries pts now es ds)
  | .dir es, .file _ _ _ => stamp pts now (.dir es)
  | .dir es, .symlink _ => stamp pts now (.dir es)
  | .file c a m, _ => stamp pts now (.file c a m)
  | .symlink tg, _ => stamp pts now (.symlink tg)

/-- Sequential merge of source entries into a destination entry list, in
source listing order, mirroring the Directory Tree Walker. -/
def overlayEntries (pts : Bool) (now : Nat) :
    List (String × FsTree) → List (String × FsTree) → List (String × FsTree)
  | [], ds => ds
  | (n, c) :: es, ds =>
      overlayEntries pts now es
        (setEntry ds n
          (match lookupEntry ds n with
           | some ex => overlay pts now c ex
           | none => stamp pts now c))

end

mutual

/-- Kind compatibility of a source subtree with an existing destination
subtree under the overwrite option: directories may only land on
directories and non-directories only on non-directories, recursively at
every colliding name. -/
def compatB : FsTree → FsTree → Bool
  | .dir es, .dir ds => compatEntriesB es ds
  | .dir _, .file _ _ _ => false
  | .dir _, .symlink _ => false
  | .file _ _ _, .dir _ => false
  | .symlink _, .dir _ => false
  | .file _ _ _, .file _ _ _ => true
  | .file _ _ _, .symlink _ => true
  | .symlink _, .file _ _ _ => true
  | .symlink _, .symlink _ => true

/-- Compatibility of each source entry with its same-named destination
entry, when one exists. -/
def compatEntriesB : List (String × FsTree) → List (String × FsTree) → Bool
  | [], _ => true
  | (n, c) :: es, ds =>
      (match lookupEntry ds n with
       | some ex => compatB c ex
       | none => true) && compatEntriesB es ds

end

mutual

/-- Well-formedness of a filesystem subtree: every directory lists each
name at most once, recursively. -/
def wfB : FsTree → Bool
  | .file _ _ _ => true
  | .symlink _ => true
  | .dir es => nodupKeys es && wfEntries es

/-- Well-formedness of every subtree of a directory entry list. -/
def wfEntries : List (String × FsTree) → Bool
  | [] => true
  | (_, c) :: es => wfB c && wfEntries es

/-- No name occurs twice in a directory entry list. -/
def nodupKeys : List (String × FsTree) → Bool
  | [] => true
  | (n, _) :: es => !hasKey es n && nodupKeys es

end

mutual

/-- Modelled from the spec: the body of the Copy Orchestrator after source
classification (copy.ts is not among the provided sources; only its test
file is).  Dispatches on the classified source node: a symbolic link is
recreated with the same raw target, a regular file is copied byte for byte
with timestamps governed by the preserve-timestamps option, and a
directory first passes the Overwrite Policy, is created fresh (with any
missing parents) when absent, and then has each listed entry copied
recursively; the first failing entry aborts the remaining siblings,
keeping all writes made so far. -/
def copyNode (now : Nat) (opts : CopyOptions) (src dest : Path)
    (node : FsTree) (fs : FsTree) : CResult :=
  match node with
  | .symlink tg =>
      match checkDestination fs src dest .symlink opts with
      | .error e => .err e fs
      | .ok _ =>
          match fs.set dest (.symlink tg) with
          | some fs' => .ok fs'
          | none => .err (.ioError dest) fs
  | .file c a m =>
      match checkDestination fs src dest .file opts with
      | .error e => .err e fs
      | .ok _ =>
          match fs.set dest (.file c (if opts.preserveTimestamps then a else now)
              (if opts.preserveTimestamps then m else now)) with
          | some fs' => .ok fs'
          | none => .err (.ioError dest) fs
  | .dir es =>
      match checkDestination fs src dest .directory opts with
      | .error e => .err e fs
      | .ok act =>
          match (match act with
                 | .proceedFresh => fs.mkdirp dest
                 | .proceedReplace => some fs) with
          | none => .err (.ioError dest) fs
          | some fs1 => copyEntries now opts src dest es fs1

/-- Modelled from the spec: the Directory Tree Walker's per-entry loop; each
listed source entry is validated and copied to the same base name under
the destination before the next entry starts, and a failure propagates at
once. -/
def copyEntries (now : Nat) (opts : CopyOptions) (src dest : Path)
    (entries : List (String × FsTree)) (fs : FsTree) : CResult :=
  match entries with
  | [] => .ok fs
  | (name, child) :: rest =>
      match validate (src ++ [name]) (dest ++ [name]) with
      | some e => .err e fs
      | none =>
          match copyNode now opts (src ++ [name]) (dest ++ [name]) child fs with
          | .err e fs' => .err e fs'
          | .ok fs' => copyEntries now opts src dest rest fs'

end

/-- Modelled from the spec: the Copy Orchestrator.  Runs the Path Validator,
classifies the source without following links (a missing source is a
source-not-found failure) and dispatches to the matching replicator. -/
def copyCore (now : Nat) (opts : CopyOptions) (src dest : Path)
    (fs : FsTree) : CResult :=
  match validate src dest with
  | some e => .err e fs
  | none =>
      match fs.lookup src with
      | none => .err (.sourceNotFound src) fs
      | some node => copyNode now opts src dest node fs

/-- Modelled from the spec: the suspending public entry point; a thin
adapter over the one sequential algorithm. -/
def copy (now : Nat) (src dest : Path) (opts : CopyOptions)
    (fs : FsTree) : CResult :=
  copyCore now opts src dest fs

/-- Modelled from the spec: the blocking public entry point; the same thin
adapter over the same sequential algorithm. -/
def copySync (now : Nat) (src dest : Path) (opts : CopyOptions)
    (fs : FsTree) : CResult :=
  copyCore now opts src dest fs

/-- Every source entry is compatible with its same-named entry of a
destination listing, and colliding entries are licensed by the overwrite
option. -/
def entriesReady (opts : CopyOptions) (es ds : List (String × FsTree)) : Prop :=
  ∀ n c ex, (n, c) ∈ es → lookupEntry ds n = some ex →
    compatB c ex = true ∧ opts.overwrite = true

/-- The destination is ready for copying a given source node: either it
already holds a kind-compatible entry and overwriting is licensed, or it is
absent and its parent directory exists. -/
def destReady (fs : FsTree) (dest : Path) (node : FsTree)
    (opts : CopyOptions) : Prop :=
  match fs.lookup dest with
  | some ex => compatB node ex = true ∧ opts.overwrite = true
  | none => dest ≠ [] ∧ ∃ ds, fs.lookup dest.dropLast = some (.dir ds)

/-- The subtree a successful copy leaves at the destination, for a given
prior destination entry. -/
def copyTarget (pts : Bool) (now : Nat) (node : FsTree) :
    Option FsTree → FsTree
  | some ex => overlay pts now node ex
  | none => stamp pts now node

/-- Concrete fixture mirroring the test data of copy_runtime_test.ts: a
testdata directory holding copy_file.txt (content "txt") and copy_dir
(0.txt plus nest/0.txt), next to an empty temporary directory. -/
def testFs : FsTree :=
  .dir [("testdata", .dir
            [("copy_file.txt", .file "txt" 1 2),
             ("copy_dir", .dir
                [("0.txt", .file "txt" 0 0),
                 ("nest", .dir [("0.txt", .file "nest" 0 0)])]),
             ("copy_dir_link_file", .dir
                [("0.txt", .symlink "testdata/copy_dir/0.txt")])]),
         ("tmp", .dir [])]

/-- Concrete fixture for the self-referential counterexample: a directory
that contains an entry carrying its own name. -/
def selfFs : FsTree :=
  .dir [("a", .dir [("a", .dir [("x", .file "v" 0 0)])])]

/-- The entry listing of the copy_dir test fixture. -/
def copyDirEntries : List (String × FsTree) :=
  [("0.txt", .file "txt" 0 0),
   ("nest", .dir [("0.txt", .file "nest" 0 0)])]

/-! Entry-list lemmas. -/

theorem lookupEntry_setEntry_self (es : List (String × FsTree)) (n : String)
    (t : FsTree) : lookupEntry (setEntry es n t) n = some t := by
  induction es with
  | nil => simp [setEntry, lookupEntry]
  | cons hd tl ih =>
      obtain ⟨m, c⟩ := hd
      by_cases h : m = n
      · subst h; simp [setEntry, lookupEntry]
      · simp [setEntry, lookupEntry, h, ih]

theorem lookupEntry_setEntry_ne (es : List (String × FsTree)) (m n : String)
    (t : FsTree) (h : m ≠ n) :
    lookupEntry (setEntry es n t) m = lookupEntry es m := by
  induction es with
  | nil => simp [setEntry, lookupEntry, Ne.symm h]
  | cons hd tl ih =>
      obtain ⟨k, c⟩ := hd
      by_cases hk : k = n
      · subst hk
        simp [setEntry, lookupEntry, Ne.symm h]
      · by_cases hm : k = m
        · subst hm
          simp [setEntry, lookupEntry, hk]
        · simp [setEntry, lookupEntry, hk, hm, ih]

theorem setEntry_setEntry_self (es : List (String × FsTree)) (n : String)
    (a b : FsTree) : setEntry (setEntry es n a) n b = setEntry es n b := by
  induction es with
  | nil => simp [setEntry]
  | cons hd tl ih =>
      obtain ⟨m, c⟩ := hd
      by_cases h : m = n
      · subst h; simp [setEntry]
      · simp [setEntry, h, ih]

theorem setEntry_of_lookup_self (es : List (String × FsTree)) (n : String)
    (t : FsTree) (h : lookupEntry es n = some t) : setEntry es n t = es := by
  induction es with
  | nil => simp [lookupEntry] at h
  | cons hd tl ih =>
      obtain ⟨m, c⟩ := hd
      by_cases hm : m = n
      · subst hm
        simp [lookupEntry] at h
        simp [setEntry, h]
      · simp [lookupEntry, hm] at h
        simp [setEntry, hm, ih h]

theorem setEntry_append_of_missing (es : List (String × FsTree)) (n : String)
    (t : FsTree) (h : lookupEntry es n = none) :
    setEntry es n t = es ++ [(n, t)] := by
  induction es with
  | nil => simp [setEntry]
  | cons hd tl ih =>
      obtain ⟨m, c⟩ := hd
      by_cases hm : m = n
      · simp [lookupEntry, hm] at h
      · simp [lookupEntry, hm] at h
        simp [setEntry, hm, ih h]

theorem lookupEntry_eq_none_of_hasKey_false (es : List (String × FsTree))
    (n : String) (h : hasKey es n = false) : lookupEntry es n = none := by
  induction es with
  | nil => simp [lookupEntry]
  | cons hd tl ih =>
      obtain ⟨m, c⟩ := hd
      simp [hasKey] at h
      simp [lookupEntry, h.1, ih h.2]

theorem hasKey_of_mem (es : List (String × FsTree)) (n : String) (c : FsTree)
    (h : (n, c) ∈ es) : hasKey es n = true := by
  induction es with
  | nil => simp at h
  | cons hd tl ih =>
      obtain ⟨m, c'⟩ := hd
      rcases List.mem_cons.mp h with h1 | h1
      · cases h1; simp [hasKey]
      · simp [hasKey, ih h1]

theorem lookupEntry_append_left_none (es es2 : List (String × FsTree))
    (n : String) (h : lookupEntry es n = none) :
    lookupEntry (es ++ es2) n = lookupEntry es2 n := by
  induction es with
  | nil => simp
  | cons hd tl ih =>
      obtain ⟨m, c⟩ := hd
      by_cases hm : m = n
      · simp [lookupEntry, hm] at h
      · simp [lookupEntry, hm] at h ⊢
        exact ih h

/-! Path lemmas. -/

theorem pathLe_refl (p : Path) : pathLe p p = true := by
  induction p with
  | nil => rfl
  | cons a p ih => simp [pathLe, ih]

theorem pathLe_self_append (p q : Path) : pathLe p (p ++ q) = true := by
  induction p with
  | nil => rfl
  | cons a p ih => simp [pathLe, ih]

theorem pathLe_length (p q : Path) (h : pathLe p q = true) :
    p.length ≤ q.length := by
  induction p generalizing q with
  | nil => simp
  | cons a p ih =>
      cases q with
      | nil => simp [pathLe] at h
      | cons b q =>
          simp [pathLe] at h
          simpa using ih q h.2

theorem pathLe_eq_of_length (p q : Path) (h : pathLe p q = true)
    (hl : q.length ≤ p.length) : p = q := by
  induction p generalizing q with
  | nil =>
      cases q with
      | nil => rfl
      | cons b q => simp at hl
  | cons a p ih =>
      cases q with
      | nil => simp [pathLe] at h
      | cons b q =>
          simp [pathLe] at h
          simp at hl
          rw [h.1, ih q h.2 hl]

theorem pathLe_exists_append (p q : Path) (h : pathLe p q = true) :
    ∃ r, q = p ++ r := by
  induction p generalizing q with
  | nil => exact ⟨q, rfl⟩
  | cons a p ih =>
      cases q with
      | nil => simp [pathLe] at h
      | cons b q =>
          simp [pathLe] at h
          obtain ⟨r, hr⟩ := ih q h.2
          exact ⟨r, by simp [h.1, hr]⟩

theorem pathLe_trans (p q r : Path) (h1 : pathLe p q = true)
    (h2 : pathLe q r = true) : pathLe p r = true := by
  induction p generalizing q r with
  | nil => rfl
  | cons a p ih =>
      cases q with
      | nil => simp [pathLe] at h1
      | cons b q =>
          cases r with
          | nil => simp [pathLe] at h2
          | cons c r =>
              simp [pathLe] at h1 h2 ⊢
              exact ⟨h1.1.trans h2.1, ih q r h1.2 h2.2⟩

theorem pathLe_snoc_of_lt (s d : Path) (n : String)
    (hl : s.length < d.length)
    (h : pathLe (s ++ [n]) (d ++ [n]) = true) : pathLe s d = true := by
  induction s generalizing d with
  | nil => rfl
  | cons a s ih =>
      cases d with
      | nil => simp at hl
      | cons b d =>
          simp [pathLe] at h ⊢
          simp at hl
          exact ⟨h.1, ih d (by omega) h.2⟩

theorem pathLe_snoc_cases (q d : Path) (n : String)
    (h : pathLe q (d ++ [n]) = true) : pathLe q d = true ∨ q = d ++ [n] := by
  induction q generalizing d with
  | nil => exact Or.inl rfl
  | cons a q ih =>
      cases d with
      | nil =>
          simp [pathLe] at h
          rcases h with ⟨ha, hq⟩
          cases q with
          | nil => exact Or.inr (by simp [ha])
          | cons b q => simp [pathLe] at hq
      | cons b d =>
          simp [pathLe] at h
          rcases ih d h.2 with h1 | h1
          · exact Or.inl (by simp [pathLe, h.1, h1])
          · exact Or.inr (by simp [h.1, h1])

theorem isUnder_irrefl (p : Path) : isUnder p p = false := by
  simp [isUnder]

theorem validate_eq_none (s d : Path) :
    validate s d = none ↔ s ≠ d ∧ isUnder s d = false := by
  unfold validate
  by_cases h : s = d
  · simp [h]
  · by_cases h2 : isUnder s d = true <;> simp_all

theorem pathLe_false_of_validate (s d : Path) (h : validate s d = none) :
    pathLe s d = false := by
  rw [validate_eq_none] at h
  by_contra hc
  simp at hc
  have hlen := pathLe_length s d hc
  rcases Nat.lt_or_ge s.length d.length with hlt | hge
  · have : isUnder s d = true := by simp [isUnder, hc, hlt]
    simp [this] at h
  · exact h.1 (pathLe_eq_of_length s d hc hge)

theorem validate_append (s d : Path) (n : String)
    (h : validate s d = none) : validate (s ++ [n]) (d ++ [n]) = none := by
  have h' := (validate_eq_none s d).mp h
  rw [validate_eq_none]
  constructor
  · intro he
    exact h'.1 (by simpa using he)
  · by_contra hc
    simp only [Bool.not_eq_false] at hc
    simp only [isUnder, Bool.and_eq_true, decide_eq_true_eq] at hc
    have hlt : s.length < d.length := by
      have := hc.2; simpa using this
    have hle := pathLe_snoc_of_lt s d n hlt hc.1
    have : isUnder s d = true := by simp [isUnder, hle, hlt]
    simp [this] at h'

theorem incomp_nonnil_left (q p : Path) (h : incomp q p = true) : q ≠ [] := by
  intro he
  subst he
  simp [incomp, pathLe] at h

theorem incomp_nonnil_right (q p : Path) (h : incomp q p = true) : p ≠ [] := by
  intro he
  subst he
  simp [incomp, pathLe] at h

theorem incomp_cons (a : String) (q p : Path)
    (h : incomp (a :: q) (a :: p) = true) : incomp q p = true := by
  simp [incomp, pathLe] at h ⊢
  exact h

theorem incomp_extend (q d : Path) (n : String) (h : incomp q d = true) :
    incomp q (d ++ [n]) = true := by
  simp only [incomp, Bool.and_eq_true, Bool.not_eq_true'] at h ⊢
  constructor
  · by_contra hc
    simp only [Bool.not_eq_false] at hc
    rcases pathLe_snoc_cases q d n hc with h1 | h1
    · simp [h1] at h
    · subst h1
      have := pathLe_self_append d [n]
      simp [this] at h
  · by_contra hc
    simp only [Bool.not_eq_false] at hc
    have : pathLe d q = true :=
      pathLe_trans d (d ++ [n]) q (pathLe_self_append d [n]) hc
    simp [this] at h

/-! Tree lemmas: lookup, set and mkdirp. -/

theorem lookup_nil (t : FsTree) : t.lookup [] = some t := by
  simp [FsTree.lookup]

theorem lookup_append (t : FsTree) (p q : Path) :
    FsTree.lookup t (p ++ q) = (FsTree.lookup t p).bind
      (fun u => FsTree.lookup u q) := by
  induction p generalizing t with
  | nil => simp [FsTree.lookup]
  | cons n p ih =>
      cases t with
      | file c a m => simp [FsTree.lookup]
      | symlink tg => simp [FsTree.lookup]
      | dir es =>
          simp only [List.cons_append, FsTree.lookup]
          cases lookupEntry es n with
          | none => simp
          | some c => simp [ih]

theorem lookup_snoc_dir (fs : FsTree) (p : Path) (ds : List (String × FsTree))
    (n : String) (h : fs.lookup p = some (.dir ds)) :
    fs.lookup (p ++ [n]) = lookupEntry ds n := by
  rw [lookup_append, h]
  cases he : lookupEntry ds n <;> simp [FsTree.lookup, he]

theorem lookup_extend_none (fs : FsTree) (p q : Path)
    (h : fs.lookup p = none) : fs.lookup (p ++ q) = none := by
  rw [lookup_append, h]
  rfl

theorem set_lookup_self (p : Path) :
    ∀ (fs fs' t : FsTree), fs.set p t = some fs' → fs'.lookup p = some t := by
  induction p with
  | nil =>
      intro fs fs' t h
      simp [FsTree.set] at h
      subst h
      simp [FsTree.lookup]
  | cons n p ih =>
      intro fs fs' t h
      cases fs with
      | file c a m => simp [FsTree.set] at h
      | symlink tg => simp [FsTree.set] at h
      | dir es =>
          cases p with
          | nil =>
              simp [FsTree.set] at h
              subst h
              simp [FsTree.lookup, lookupEntry_setEntry_self]
          | cons m q =>
              simp only [FsTree.set] at h
              cases he : lookupEntry es n with
              | none => simp [he] at h
              | some c =>
                  simp only [he] at h
                  cases hs : FsTree.set c (m :: q) t with
                  | none => simp [hs] at h
                  | some c' =>
                      simp only [hs, Option.some.injEq] at h
                      subst h
                      simp [FsTree.lookup, lookupEntry_setEntry_self]
                      exact ih c c' t hs

theorem set_frame (p : Path) :
    ∀ (fs fs' t : FsTree) (q : Path), fs.set p t = some fs' →
      incomp q p = true → fs'.lookup q = fs.lookup q := by
  induction p with
  | nil =>
      intro fs fs' t q h hq
      exact absurd rfl (incomp_nonnil_right q [] hq)
  | cons n p ih =>
      intro fs fs' t q h hq
      obtain ⟨a, q', hq'⟩ : ∃ a q', q = a :: q' := by
        cases q with
        | nil => exact absurd rfl (incomp_nonnil_left [] (n :: p) hq)
        | cons a q' => exact ⟨a, q', rfl⟩
      subst hq'
      cases fs with
      | file c a' m => simp [FsTree.set] at h
      | symlink tg => simp [FsTree.set] at h
      | dir es =>
          cases p with
          | nil =>
              simp [FsTree.set] at h
              subst h
              by_cases ha : a = n
              · subst ha
                exfalso
                simp [incomp, pathLe] at hq
              · simp [FsTree.lookup, lookupEntry_setEntry_ne es a n t ha]
          | cons m p' =>
              simp only [FsTree.set] at h
              cases he : lookupEntry es n with
              | none => simp [he] at h
              | some c =>
                  simp only [he] at h
                  cases hs : FsTree.set c (m :: p') t with
                  | none => simp [hs] at h
                  | some c' =>
                      simp only [hs, Option.some.injEq] at h
                      subst h
                      by_cases ha : a = n
                      · subst ha
                        have hq2 := incomp_cons a q' (m :: p') hq
                        simp [FsTree.lookup, lookupEntry_setEntry_self, he]
                        exact ih c c' t q' hs hq2
                      · simp [FsTree.lookup,
                          lookupEntry_setEntry_ne es a n c' ha]

theorem set_id (p : Path) :
    ∀ (fs t : FsTree), fs.lookup p = some t → fs.set p t = some fs := by
  induction p with
  | nil =>
      intro fs t h
      simp [FsTree.lookup] at h
      subst h
      simp [FsTree.set]
  | cons n p ih =>
      intro fs t h
      cases fs with
      | file c a m => simp [FsTree.lookup] at h
      | symlink tg => simp [FsTree.lookup] at h
      | dir es =>
          simp only [FsTree.lookup] at h
          cases he : lookupEntry es n with
          | none => simp [he] at h
          | some c =>
              simp only [he] at h
              cases p with
              | nil =>
                  simp [FsTree.lookup] at h
                  subst h
                  simp [FsTree.set, setEntry_of_lookup_self es n c he]
              | cons m q =>
                  simp only [FsTree.set, he]
                  rw [ih c t h]
                  simp [setEntry_of_lookup_self es n c he]

theorem set_absorb (p : Path) :
    ∀ (p1 : Path) (fs f1 a b : FsTree), pathLe p p1 = true →
      fs.set p1 a = some f1 → f1.set p b = fs.set p b := by
  induction p with
  | nil => intro p1 fs f1 a b _ _; simp [FsTree.set]
  | cons n p' ih =>
      intro p1 fs f1 a b hle h
      obtain ⟨m, p1', hp1⟩ : ∃ m p1', p1 = m :: p1' := by
        cases p1 with
        | nil => simp [pathLe] at hle
        | cons m p1' => exact ⟨m, p1', rfl⟩
      subst hp1
      simp only [pathLe, Bool.and_eq_true, beq_iff_eq] at hle
      obtain ⟨hnm, hle'⟩ := hle
      subst hnm
      cases fs with
      | file c a' m' => simp [FsTree.set] at h
      | symlink tg => simp [FsTree.set] at h
      | dir es =>
          cases p1' with
          | nil =>
              have hp' : p' = [] := by
                cases p' with
                | nil => rfl
                | cons x xs => simp [pathLe] at hle'
              subst hp'
              simp [FsTree.set] at h
              subst h
              simp [FsTree.set, setEntry_setEntry_self]
          | cons m1 q1 =>
              simp only [FsTree.set] at h
              cases he : lookupEntry es n with
              | none => simp [he] at h
              | some c =>
                  simp only [he] at h
                  cases hs : FsTree.set c (m1 :: q1) a with
                  | none => simp [hs] at h
                  | some c' =>
                      simp only [hs, Option.some.injEq] at h
                      subst h
                      cases p' with
                      | nil =>
                          simp [FsTree.set, setEntry_setEntry_self]
                      | cons m2 q2 =>
                          simp only [FsTree.set,
                            lookupEntry_setEntry_self, he]
                          rw [ih (m1 :: q1) c c' a b hle' hs]
                          cases FsTree.set c (m2 :: q2) b <;>
                            simp [setEntry_setEntry_self]

theorem set_append_one (p : Path) :
    ∀ (fs t : FsTree) (ds : List (String × FsTree)) (n : String),
      fs.lookup p = some (.dir ds) →
      fs.set (p ++ [n]) t = fs.set p (.dir (setEntry ds n t)) := by
  induction p with
  | nil =>
      intro fs t ds n h
      simp [FsTree.lookup] at h
      subst h
      simp [FsTree.set]
  | cons m p' ih =>
      intro fs t ds n h
      cases fs with
      | file c a m' => simp [FsTree.lookup] at h
      | symlink tg => simp [FsTree.lookup] at h
      | dir es =>
          simp only [FsTree.lookup] at h
          cases he : lookupEntry es m with
          | none => simp [he] at h
          | some c =>
              simp only [he] at h
              cases p' with
              | nil =>
                  simp [FsTree.lookup] at h
                  subst h
                  simp [FsTree.set, he]
              | cons m2 q2 =>
                  simp only [List.cons_append, List.append_eq, FsTree.set, he]
                  rw [show m2 :: (q2 ++ [n]) = (m2 :: q2) ++ [n] by simp]
                  rw [ih c t ds n h]

theorem set_of_lookup_some (p : Path) :
    ∀ (fs t v : FsTree), fs.lookup p = some t →
      ∃ fs', fs.set p v = some fs' := by
  induction p with
  | nil => intro fs t v _; exact ⟨v, by simp [FsTree.set]⟩
  | cons n p ih =>
      intro fs t v h
      cases fs with
      | file c a m => simp [FsTree.lookup] at h
      | symlink tg => simp [FsTree.lookup] at h
      | dir es =>
          simp only [FsTree.lookup] at h
          cases he : lookupEntry es n with
          | none => simp [he] at h
          | some c =>
              simp only [he] at h
              cases p with
              | nil => exact ⟨.dir (setEntry es n v), by simp [FsTree.set]⟩
              | cons m q =>
                  obtain ⟨c', hc'⟩ := ih c t v h
                  exact ⟨.dir (setEntry es n c'), by
                    simp [FsTree.set, he, hc']⟩

theorem mkdirp_missing (p : Path) :
    ∀ (fs : FsTree) (ds : List (String × FsTree)) (n : String),
      fs.lookup p = some (.dir ds) → lookupEntry ds n = none →
      fs.mkdirp (p ++ [n]) = fs.set (p ++ [n]) (.dir []) := by
  induction p with
  | nil =>
      intro fs ds n h hn
      simp [FsTree.lookup] at h
      subst h
      simp [FsTree.mkdirp, FsTree.set, hn, mkDirs]
  | cons m p' ih =>
      intro fs ds n h hn
      cases fs with
      | file c a m' => simp [FsTree.lookup] at h
      | symlink tg => simp [FsTree.lookup] at h
      | dir es =>
          simp only [FsTree.lookup] at h
          cases he : lookupEntry es m with
          | none => simp [he] at h
          | some c =>
              simp only [he] at h
              simp only [List.cons_append, List.append_eq, FsTree.mkdirp, he]
              rw [ih c ds n h hn]
              cases p' with
              | nil => simp [FsTree.set, he]
              | cons m2 q2 => simp [FsTree.set, he]

theorem mkDirs_lookup_incomp (p : Path) :
    ∀ (q : Path), incomp q p = true → (mkDirs p).lookup q = none := by
  induction p with
  | nil => intro q hq; exact absurd rfl (incomp_nonnil_right q [] hq)
  | cons n p ih =>
      intro q hq
      obtain ⟨a, q', hq'⟩ : ∃ a q', q = a :: q' := by
        cases q with
        | nil => exact absurd rfl (incomp_nonnil_left [] (n :: p) hq)
        | cons a q' => exact ⟨a, q', rfl⟩
      subst hq'
      by_cases ha : a = n
      · subst ha
        have := incomp_cons a q' p hq
        simp [mkDirs, FsTree.lookup, lookupEntry, ih q' this]
      · simp [mkDirs, FsTree.lookup, lookupEntry, Ne.symm ha]

theorem mkdirp_frame (p : Path) :
    ∀ (fs fs' : FsTree) (q : Path), fs.mkdirp p = some fs' →
      incomp q p = true → fs'.lookup q = fs.lookup q := by
  induction p with
  | nil => intro fs fs' q h hq; exact absurd rfl (incomp_nonnil_right q [] hq)
  | cons n p ih =>
      intro fs fs' q h hq
      obtain ⟨a, q', hq'⟩ : ∃ a q', q = a :: q' := by
        cases q with
        | nil => exact absurd rfl (incomp_nonnil_left [] (n :: p) hq)
        | cons a q' => exact ⟨a, q', rfl⟩
      subst hq'
      cases fs with
      | file c a' m => simp [FsTree.mkdirp] at h
      | symlink tg => simp [FsTree.mkdirp] at h
      | dir es =>
          simp only [FsTree.mkdirp] at h
          cases he : lookupEntry es n with
          | none =>
              simp only [he, Option.some.injEq] at h
              subst h
              by_cases ha : a = n
              · subst ha
                have hq2 := incomp_cons a q' p hq
                simp [FsTree.lookup, lookupEntry_setEntry_self, he,
                  mkDirs_lookup_incomp p q' hq2]
              · simp [FsTree.lookup,
                  lookupEntry_setEntry_ne es a n (mkDirs p) ha]
          | some c =>
              simp only [he] at h
              cases hm : FsTree.mkdirp c p with
              | none => simp [hm] at h
              | some c' =>
                  simp only [hm, Option.some.injEq] at h
                  subst h
                  by_cases ha : a = n
                  · subst ha
                    have hq2 := incomp_cons a q' p hq
                    simp [FsTree.lookup, lookupEntry_setEntry_self, he]
                    exact ih c c' q' hm hq2
                  · simp [FsTree.lookup,
                      lookupEntry_setEntry_ne es a n c' ha]

/-! A membership-based induction principle for the nested tree type. -/

theorem sizeOf_lt_of_mem_entries (es : List (String × FsTree)) (n : String)
    (c : FsTree) (h : (n, c) ∈ es) : sizeOf c < sizeOf (FsTree.dir es) := by
  have hlt : sizeOf c < sizeOf es := by
    induction es with
    | nil => simp at h
    | cons hd tl ih =>
        obtain ⟨m, c'⟩ := hd
        rcases List.mem_cons.mp h with h1 | h1
        · cases h1; simp; omega
        · have := ih h1; simp; omega
  simp
  omega

theorem FsTree.one_le_sizeOf (t : FsTree) : 1 ≤ sizeOf t := by
  cases t <;> simp <;> omega

theorem FsTree.memInd (P : FsTree → Prop)
    (hf : ∀ c a m, P (.file c a m))
    (hs : ∀ tg, P (.symlink tg))
    (hd : ∀ es, (∀ n c, (n, c) ∈ es → P c) → P (.dir es)) :
    ∀ t, P t := by
  have H : ∀ (k : Nat) (t : FsTree), sizeOf t ≤ k → P t := by
    intro k
    induction k with
    | zero =>
        intro t h
        have := FsTree.one_le_sizeOf t
        omega
    | succ k ih =>
        intro t hsz
        cases t with
        | file c a m => exact hf c a m
        | symlink tg => exact hs tg
        | dir es =>
            refine hd es (fun n c hmem => ih c ?_)
            have := sizeOf_lt_of_mem_entries es n c hmem
            omega
  intro t
  exact H (sizeOf t) t le_rfl

/-! Well-formedness and compatibility extraction lemmas. -/

theorem wf_dir_nodup (es : List (String × FsTree))
    (h : wfB (.dir es) = true) : nodupKeys es = true := by
  simp [wfB] at h
  exact h.1

theorem wf_dir_entries (es : List (String × FsTree))
    (h : wfB (.dir es) = true) : wfEntries es = true := by
  simp [wfB] at h
  exact h.2

theorem wfEntries_mem (es : List (String × FsTree)) (n : String) (c : FsTree)
    (hw : wfEntries es = true) (h : (n, c) ∈ es) : wfB c = true := by
  induction es with
  | nil => simp at h
  | cons hd tl ih =>
      obtain ⟨m, c'⟩ := hd
      simp [wfEntries] at hw
      rcases List.mem_cons.mp h with h1 | h1
      · cases h1; exact hw.1
      · exact ih hw.2 h1

theorem wfEntries_tail (hd : String × FsTree) (tl : List (String × FsTree))
    (hw : wfEntries (hd :: tl) = true) : wfEntries tl = true := by
  obtain ⟨m, c⟩ := hd
  simp [wfEntries] at hw
  exact hw.2

theorem nodupKeys_cons (n : String) (c : FsTree) (es : List (String × FsTree))
    (h : nodupKeys ((n, c) :: es) = true) :
    hasKey es n = false ∧ nodupKeys es = true := by
  simp [nodupKeys] at h
  exact h

theorem compatEntries_mem (es ds : List (String × FsTree)) (n : String)
    (c ex : FsTree) (hc : compatEntriesB es ds = true) (hm : (n, c) ∈ es)
    (hl : lookupEntry ds n = some ex) : compatB c ex = true := by
  induction es with
  | nil => simp at hm
  | cons hd tl ih =>
      obtain ⟨m, c'⟩ := hd
      simp only [compatEntriesB, Bool.and_eq_true] at hc
      rcases List.mem_cons.mp hm with h1 | h1
      · cases h1
        rw [hl] at hc
        exact hc.1
      · exact ih hc.2 h1

theorem compat_dir_elim (es : List (String × FsTree)) (ex : FsTree)
    (h : compatB (.dir es) ex = true) :
    ∃ ds, ex = .dir ds ∧ compatEntriesB es ds = true := by
  cases ex with
  | file c a m => simp [compatB] at h
  | symlink tg => simp [compatB] at h
  | dir ds => exact ⟨ds, rfl, h⟩

theorem compat_file_not_dir (c : String) (a m : Nat) (ex : FsTree)
    (h : compatB (.file c a m) ex = true) : ex.kind ≠ .directory := by
  cases ex <;> simp [compatB] at h ⊢ <;> simp [FsTree.kind]

theorem compat_symlink_not_dir (tg : String) (ex : FsTree)
    (h : compatB (.symlink tg) ex = true) : ex.kind ≠ .directory := by
  cases ex <;> simp [compatB] at h ⊢ <;> simp [FsTree.kind]

/-! Stamp and overlay lemmas. -/

theorem lookupEntry_stampEntries (pts : Bool) (now : Nat)
    (es : List (String × FsTree)) (n : String) :
    lookupEntry (stampEntries pts now es) n =
      (lookupEntry es n).map (stamp pts now) := by
  induction es with
  | nil => simp [stampEntries, lookupEntry]
  | cons hd tl ih =>
      obtain ⟨m, c⟩ := hd
      by_cases h : m = n
      · subst h; simp [stampEntries, lookupEntry]
      · simp [stampEntries, lookupEntry, h, ih]

theorem overlayEntries_fresh (pts : Bool) (now : Nat)
    (es : List (String × FsTree)) :
    ∀ (ds : List (String × FsTree)), nodupKeys es = true →
      (∀ n c, (n, c) ∈ es → lookupEntry ds n = none) →
      overlayEntries pts now es ds = ds ++ stampEntries pts now es := by
  induction es with
  | nil => intro ds _ _; simp [overlayEntries, stampEntries]
  | cons hd tl ih =>
      intro ds hnd hmiss
      obtain ⟨n, c⟩ := hd
      have hn : lookupEntry ds n = none :=
        hmiss n c (List.mem_cons_self _ _)
      have hnd' := nodupKeys_cons n c tl hnd
      simp only [overlayEntries, hn]
      rw [setEntry_append_of_missing ds n (stamp pts now c) hn]
      rw [ih (ds ++ [(n, stamp pts now c)]) hnd'.2 ?_]
      · simp [stampEntries]
      · intro m c' hm
        have hmn : m ≠ n := by
          intro he
          subst he
          have := hasKey_of_mem tl m c' hm
          rw [this] at hnd'
          exact absurd hnd'.1 (by simp)
        rw [lookupEntry_append_left_none ds [(n, stamp pts now c)] m
          (hmiss m c' (List.mem_cons_of_mem _ hm))]
        simp [lookupEntry, Ne.symm hmn]

theorem overlayEntries_preserves_missing (pts : Bool) (now : Nat)
    (es : List (String × FsTree)) :
    ∀ (ds : List (String × FsTree)) (n : String), hasKey es n = false →
      lookupEntry (overlayEntries pts now es ds) n = lookupEntry ds n := by
  induction es with
  | nil => intro ds n _; simp [overlayEntries]
  | cons hd tl ih =>
      intro ds n h
      obtain ⟨m, c⟩ := hd
      simp only [hasKey, Bool.or_eq_false_iff, beq_eq_false_iff_ne] at h
      simp only [overlayEntries]
      rw [ih _ n h.2]
      exact lookupEntry_setEntry_ne ds n m _ (Ne.symm h.1)

theorem stamp_shape (erase : Nat) (pts : Bool) (now : Nat) :
    ∀ t, stamp false erase (stamp pts now t) = stamp false erase t := by
  intro t
  induction t using FsTree.memInd with
  | hf c a m => simp [stamp]
  | hs tg => simp [stamp]
  | hd es ih =>
      simp only [stamp, FsTree.dir.injEq]
      induction es with
      | nil => simp [stampEntries]
      | cons hd tl ihes =>
          obtain ⟨n, c⟩ := hd
          simp only [stampEntries, List.cons.injEq, Prod.mk.injEq]
          refine ⟨⟨trivial, ih n c (List.mem_cons_self _ _)⟩, ?_⟩
          exact ihes (fun m c' hm => ih m c' (List.mem_cons_of_mem _ hm))

/-! Overwrite Policy reduction lemmas. -/

theorem checkDest_fresh (fs : FsTree) (src dest : Path) (srcKind : EntryKind)
    (opts : CopyOptions) (hl : fs.lookup dest = none) :
    checkDestination fs src dest srcKind opts = .ok .proceedFresh := by
  simp [checkDestination, hl]

theorem checkDest_replace_nondir (fs : FsTree) (src dest : Path)
    (srcKind : EntryKind) (opts : CopyOptions) (ex : FsTree)
    (hl : fs.lookup dest = some ex) (hov : opts.overwrite = true)
    (hsrc : srcKind ≠ .directory) (hkind : ex.kind ≠ .directory) :
    checkDestination fs src dest srcKind opts = .ok .proceedReplace := by
  simp [checkDestination, hl, hov, hsrc, hkind]

theorem checkDest_replace_dir (fs : FsTree) (src dest : Path)
    (opts : CopyOptions) (ds : List (String × FsTree))
    (hl : fs.lookup dest = some (.dir ds)) (hov : opts.overwrite = true) :
    checkDestination fs src dest .directory opts = .ok .proceedReplace := by
  simp [checkDestination, hl, hov, FsTree.kind]

theorem checkDest_mismatch_dir (fs : FsTree) (src dest : Path)
    (opts : CopyOptions) (ex : FsTree) (hl : fs.lookup dest = some ex)
    (hkind : ex.kind ≠ .directory) :
    checkDestination fs src dest .directory opts =
      .error (.typeMismatch src dest true) := by
  simp [checkDestination, hl, hkind]

theorem checkDest_exists (fs : FsTree) (src dest : Path)
    (srcKind : EntryKind) (opts : CopyOptions) (ex : FsTree)
    (hl : fs.lookup dest = some ex) (hov : opts.overwrite = false)
    (hmm : ¬(srcKind = .directory ∧ ex.kind ≠ .directory)) :
    checkDestination fs src dest srcKind opts =
      .error (.alreadyExists dest) := by
  simp [checkDestination, hl, hov, hmm]

/-! The master correctness theorem of the copy engine. -/

theorem copyEntries_correct (es : List (String × FsTree))
    (IH : ∀ n c, (n, c) ∈ es → wfB c = true →
      ∀ (src dest : Path) (opts : CopyOptions) (now : Nat) (fs : FsTree),
        validate src dest = none → destReady fs dest c opts →
        ∃ fs', FsTree.set fs dest
            (copyTarget opts.preserveTimestamps now c (fs.lookup dest))
              = some fs'
          ∧ copyNode now opts src dest c fs = .ok fs')
    (hwf : wfEntries es = true) (hnd : nodupKeys es = true) :
    ∀ (ds : List (String × FsTree)) (src dest : Path) (opts : CopyOptions)
      (now : Nat) (fs : FsTree),
      validate src dest = none →
      fs.lookup dest = some (.dir ds) →
      entriesReady opts es ds →
      ∃ fs', FsTree.set fs dest
          (.dir (overlayEntries opts.preserveTimestamps now es ds)) = some fs'
        ∧ copyEntries now opts src dest es fs = .ok fs' := by
  induction es with
  | nil =>
      intro ds src dest opts now fs hval hl hready
      refine ⟨fs, ?_, by simp [copyEntries]⟩
      simpa [overlayEntries] using set_id dest fs (.dir ds) hl
  | cons hd tl ih =>
      intro ds src dest opts now fs hval hl hready
      obtain ⟨n, c⟩ := hd
      have hvalc := validate_append src dest n hval
      have hlc : fs.lookup (dest ++ [n]) = lookupEntry ds n :=
        lookup_snoc_dir fs dest ds n hl
      have hwfc : wfB c = true :=
        wfEntries_mem _ n c hwf (List.mem_cons_self _ _)
      have hndc := nodupKeys_cons n c tl hnd
      have hreadyc : destReady fs (dest ++ [n]) c opts := by
        unfold destReady
        rw [hlc]
        cases he : lookupEntry ds n with
        | some ex => exact hready n c ex (List.mem_cons_self _ _) he
        | none =>
            refine ⟨by simp, ds, ?_⟩
            rw [show (dest ++ [n]).dropLast = dest by simp]
            exact hl
      obtain ⟨fs1, hset1, hcopy1⟩ :=
        IH n c (List.mem_cons_self _ _) hwfc (src ++ [n]) (dest ++ [n])
          opts now fs hvalc hreadyc
      rw [hlc] at hset1
      have heq : fs.set (dest ++ [n])
          (copyTarget opts.preserveTimestamps now c (lookupEntry ds n)) =
          fs.set dest (.dir (setEntry ds n
            (copyTarget opts.preserveTimestamps now c (lookupEntry ds n)))) :=
        set_append_one dest fs _ ds n hl
      have hl1 : fs1.lookup dest = some (.dir (setEntry ds n
          (copyTarget opts.preserveTimestamps now c (lookupEntry ds n)))) :=
        set_lookup_self dest fs fs1 _ (heq ▸ hset1)
      have hready' : entriesReady opts tl (setEntry ds n
          (copyTarget opts.preserveTimestamps now c (lookupEntry ds n))) := by
        intro m c' ex hm hlk
        have hmn : m ≠ n := by
          intro he
          subst he
          have := hasKey_of_mem tl m c' hm
          rw [this] at hndc
          exact absurd hndc.1 (by simp)
        rw [lookupEntry_setEntry_ne ds m n _ hmn] at hlk
        exact hready m c' ex (List.mem_cons_of_mem _ hm) hlk
      obtain ⟨fs2, hset2, hcopy2⟩ :=
        ih (fun m c' hm => IH m c' (List.mem_cons_of_mem _ hm))
          (wfEntries_tail _ _ hwf) hndc.2 _ src dest opts now fs1
          hval hl1 hready'
      refine ⟨fs2, ?_, ?_⟩
      · have hoeq : overlayEntries opts.preserveTimestamps now
            ((n, c) :: tl) ds = overlayEntries opts.preserveTimestamps now tl
              (setEntry ds n (copyTarget opts.preserveTimestamps now c
                (lookupEntry ds n))) := by
          simp only [overlayEntries]
          cases lookupEntry ds n <;> rfl
        rw [hoeq]
        rw [← set_absorb dest (dest ++ [n]) fs fs1 _ _
          (pathLe_self_append dest [n]) hset1]
        exact hset2
      · simp only [copyEntries, hvalc, hcopy1]
        exact hcopy2

theorem copyNode_correct :
    ∀ (node : FsTree), wfB node = true →
    ∀ (src dest : Path) (opts : CopyOptions) (now : Nat) (fs : FsTree),
      validate src dest = none → destReady fs dest node opts →
      ∃ fs', FsTree.set fs dest
          (copyTarget opts.preserveTimestamps now node (fs.lookup dest))
            = some fs'
        ∧ copyNode now opts src dest node fs = .ok fs' := by
  intro node
  induction node using FsTree.memInd with
  | hf c a m =>
      intro _ src dest opts now fs hval hready
      unfold destReady at hready
      cases hl : fs.lookup dest with
      | none =>
          rw [hl] at hready
          obtain ⟨hne, ds0, hpar⟩ := hready
          rcases List.eq_nil_or_concat dest with hd | ⟨dp, lastn, hdp⟩
          · exact absurd hd hne
          subst hdp
          rw [List.concat_eq_append] at hl hpar ⊢
          rw [show (dp ++ [lastn]).dropLast = dp by simp] at hpar
          obtain ⟨fs', hfs'⟩ := set_of_lookup_some dp fs _
            (.dir (setEntry ds0 lastn (copyTarget opts.preserveTimestamps now
              (.file c a m) none))) hpar
          have hset : fs.set (dp ++ [lastn]) (copyTarget
              opts.preserveTimestamps now (.file c a m) none) = some fs' := by
            rw [set_append_one dp fs _ ds0 lastn hpar]
            exact hfs'
          refine ⟨fs', hset, ?_⟩
          simp only [copyNode, checkDest_fresh fs src _ .file opts hl]
          simp only [copyTarget, stamp] at hset
          rw [hset]
      | some ex =>
          rw [hl] at hready
          obtain ⟨hcompat, hov⟩ := hready
          have hkind := compat_file_not_dir c a m ex hcompat
          obtain ⟨fs', hfs'⟩ := set_of_lookup_some dest fs ex
            (copyTarget opts.preserveTimestamps now (.file c a m) (some ex))
            hl
          refine ⟨fs', hfs', ?_⟩
          simp only [copyNode, checkDest_replace_nondir fs src dest .file
            opts ex hl hov (by simp) hkind]
          have : copyTarget opts.preserveTimestamps now (.file c a m)
              (some ex) = .file c (if opts.preserveTimestamps then a else now)
                (if opts.preserveTimestamps then m else now) := by
            cases ex <;> simp [copyTarget, overlay, stamp]
          rw [this] at hfs'
          rw [hfs']
  | hs tg =>
      intro _ src dest opts now fs hval hready
      unfold destReady at hready
      cases hl : fs.lookup dest with
      | none =>
          rw [hl] at hready
          obtain ⟨hne, ds0, hpar⟩ := hready
          rcases List.eq_nil_or_concat dest with hd | ⟨dp, lastn, hdp⟩
          · exact absurd hd hne
          subst hdp
          rw [List.concat_eq_append] at hl hpar ⊢
          rw [show (dp ++ [lastn]).dropLast = dp by simp] at hpar
          obtain ⟨fs', hfs'⟩ := set_of_lookup_some dp fs _
            (.dir (setEntry ds0 lastn (copyTarget opts.preserveTimestamps now
              (.symlink tg) none))) hpar
          have hset : fs.set (dp ++ [lastn]) (copyTarget
              opts.preserveTimestamps now (.symlink tg) none) = some fs' := by
            rw [set_append_one dp fs _ ds0 lastn hpar]
            exact hfs'
          refine ⟨fs', hset, ?_⟩
          simp only [copyNode, checkDest_fresh fs src _ .symlink opts hl]
          simp only [copyTarget, stamp] at hset
          rw [hset]
      | some ex =>
          rw [hl] at hready
          obtain ⟨hcompat, hov⟩ := hready
          have hkind := compat_symlink_not_dir tg ex hcompat
          obtain ⟨fs', hfs'⟩ := set_of_lookup_some dest fs ex
            (copyTarget opts.preserveTimestamps now (.symlink tg) (some ex))
            hl
          refine ⟨fs', hfs', ?_⟩
          simp only [copyNode, checkDest_replace_nondir fs src dest .symlink
            opts ex hl hov (by simp) hkind]
          have : copyTarget opts.preserveTimestamps now (.symlink tg)
              (some ex) = .symlink tg := by
            cases ex <;> simp [copyTarget, overlay, stamp]
          rw [this] at hfs'
          rw [hfs']
  | hd es ihmem =>
      intro hwf src dest opts now fs hval hready
      have hnd := wf_dir_nodup es hwf
      have hwfe := wf_dir_entries es hwf
      unfold destReady at hready
      cases hl : fs.lookup dest with
      | none =>
          rw [hl] at hready
          obtain ⟨hne, ds0, hpar⟩ := hready
          rcases List.eq_nil_or_concat dest with hd | ⟨dp, lastn, hdp⟩
          · exact absurd hd hne
          subst hdp
          rw [List.concat_eq_append] at hl hpar hval ⊢
          rw [show (dp ++ [lastn]).dropLast = dp by simp] at hpar
          have hmiss : lookupEntry ds0 lastn = none := by
            have := lookup_snoc_dir fs dp ds0 lastn hpar
            rw [hl] at this
            exact this.symm
          have hmk : fs.mkdirp (dp ++ [lastn]) =
              fs.set (dp ++ [lastn]) (.dir []) :=
            mkdirp_missing dp fs ds0 lastn hpar hmiss
          obtain ⟨fs1, hfs1⟩ := set_of_lookup_some dp fs _
            (.dir (setEntry ds0 lastn (.dir []))) hpar
          have hset1 : fs.set (dp ++ [lastn]) (.dir []) = some fs1 := by
            rw [set_append_one dp fs _ ds0 lastn hpar]
            exact hfs1
          have hl1 : fs1.lookup (dp ++ [lastn]) = some (.dir []) :=
            set_lookup_self _ fs fs1 _ hset1
          obtain ⟨fs2, hset2, hcopy2⟩ :=
            copyEntries_correct es ihmem hwfe hnd [] src (dp ++ [lastn])
              opts now fs1 hval hl1
              (by intro m c' ex hm hlk; simp [lookupEntry] at hlk)
          refine ⟨fs2, ?_, ?_⟩
          · have hov : overlayEntries opts.preserveTimestamps now es [] =
                stampEntries opts.preserveTimestamps now es := by
              have := overlayEntries_fresh opts.preserveTimestamps now es []
                hnd (by intro m c' hm; simp [lookupEntry])
              simpa using this
            have habs := set_absorb (dp ++ [lastn]) (dp ++ [lastn]) fs fs1
              (.dir []) (.dir (overlayEntries opts.preserveTimestamps now
                es [])) (pathLe_refl _) hset1
            simp only [copyTarget, stamp]
            rw [← hov, ← habs]
            exact hset2
          · simp only [copyNode,
              checkDest_fresh fs src _ .directory opts hl]
            rw [hmk, hset1]
            exact hcopy2
      | some ex =>
          rw [hl] at hready
          obtain ⟨hcompat, hov⟩ := hready
          obtain ⟨ds, rfl, hce⟩ := compat_dir_elim es ex hcompat
          have hready' : entriesReady opts es ds := by
            intro n c ex' hm hlk
            exact ⟨compatEntries_mem es ds n c ex' hce hm hlk, hov⟩
          obtain ⟨fs2, hset2, hcopy2⟩ :=
            copyEntries_correct es ihmem hwfe hnd ds src dest opts now fs
              hval hl hready'
          refine ⟨fs2, ?_, ?_⟩
          · simp only [copyTarget, overlay]
            exact hset2
          · simp only [copyNode,
              checkDest_replace_dir fs src dest opts ds hl hov]
            exact hcopy2

/-! The frame theorem: every write of a copy lands at the destination or
below it, so any path incomparable with the destination resolves the same
before and after, whether the run succeeds or fails. -/

theorem copyEntries_frame (es : List (String × FsTree))
    (IH : ∀ n c, (n, c) ∈ es →
      ∀ (src dest : Path) (opts : CopyOptions) (now : Nat) (fs : FsTree)
        (q : Path), incomp q dest = true →
        ((copyNode now opts src dest c fs).stateOf).lookup q = fs.lookup q) :
    ∀ (src dest : Path) (opts : CopyOptions) (now : Nat) (fs : FsTree)
      (q : Path), incomp q dest = true →
      ((copyEntries now opts src dest es fs).stateOf).lookup q =
        fs.lookup q := by
  induction es with
  | nil =>
      intro src dest opts now fs q hq
      simp [copyEntries, CResult.stateOf]
  | cons hd tl ih =>
      intro src dest opts now fs q hq
      obtain ⟨n, c⟩ := hd
      simp only [copyEntries]
      cases hv : validate (src ++ [n]) (dest ++ [n]) with
      | some e => simp [CResult.stateOf]
      | none =>
          have hq' := incomp_extend q dest n hq
          have h1 := IH n c (List.mem_cons_self _ _) (src ++ [n])
            (dest ++ [n]) opts now fs q hq'
          cases hc : copyNode now opts (src ++ [n]) (dest ++ [n]) c fs with
          | err e fs' =>
              rw [hc] at h1
              simpa [CResult.stateOf] using h1
          | ok fs' =>
              rw [hc] at h1
              simp only [CResult.stateOf] at h1
              have h2 := ih (fun m c' hm => IH m c'
                (List.mem_cons_of_mem _ hm)) src dest opts now fs' q hq
              rw [h2, h1]

theorem copyNode_frame :
    ∀ (node : FsTree) (src dest : Path) (opts : CopyOptions) (now : Nat)
      (fs : FsTree) (q : Path), incomp q dest = true →
      ((copyNode now opts src dest node fs).stateOf).lookup q =
        fs.lookup q := by
  intro node
  induction node using FsTree.memInd with
  | hf c a m =>
      intro src dest opts now fs q hq
      simp only [copyNode]
      cases hcd : checkDestination fs src dest .file opts with
      | error e => simp [CResult.stateOf]
      | ok act =>
          cases hs : fs.set dest (.file c
              (if opts.preserveTimestamps then a else now)
              (if opts.preserveTimestamps then m else now)) with
          | some fs' =>
              simp only [CResult.stateOf]
              exact set_frame dest fs fs' _ q hs hq
          | none => simp [CResult.stateOf]
  | hs tg =>
      intro src dest opts now fs q hq
      simp only [copyNode]
      cases hcd : checkDestination fs src dest .symlink opts with
      | error e => simp [CResult.stateOf]
      | ok act =>
          cases hs : fs.set dest (.symlink tg) with
          | some fs' =>
              simp only [CResult.stateOf]
              exact set_frame dest fs fs' _ q hs hq
          | none => simp [CResult.stateOf]
  | hd es ihmem =>
      intro src dest opts now fs q hq
      simp only [copyNode]
      cases hcd : checkDestination fs src dest .directory opts with
      | error e => simp [CResult.stateOf]
      | ok act =>
          cases act with
          | proceedFresh =>
              cases hm : fs.mkdirp dest with
              | none => simp [CResult.stateOf]
              | some fs1 =>
                  simp only []
                  have h1 := mkdirp_frame dest fs fs1 q hm hq
                  have h2 := copyEntries_frame es ihmem src dest opts now
                    fs1 q hq
                  rw [h2, h1]
          | proceedReplace =>
              simp only []
              exact copyEntries_frame es ihmem src dest opts now fs q hq

theorem incomp_of_validate_fresh (src dest : Path) (fs t : FsTree)
    (hval : validate src dest = none) (hsrc : fs.lookup src = some t)
    (hfresh : fs.lookup dest = none) : incomp src dest = true := by
  have h1 : pathLe src dest = false := pathLe_false_of_validate src dest hval
  have h2 : pathLe dest src = false := by
    by_contra hc
    simp only [Bool.not_eq_false] at hc
    obtain ⟨u, hu⟩ := pathLe_exists_append dest src hc
    subst hu
    rw [lookup_extend_none fs dest u hfresh] at hsrc
    exact Option.noConfusion hsrc
  simp [incomp, h1, h2]

/-! The claim theorems. -/

/-- C4: for every path p, whether or not p exists, copying p onto itself
fails with SamePath and the exact message "Source and destination cannot be
the same.", and the filesystem at the moment of failure is the untouched
input filesystem (no write is performed). -/
theorem copy_same_path_rejected (now : Nat) (p : Path) (opts : CopyOptions)
    (fs : FsTree) :
    copy now p p opts fs = .err (.samePath p p) fs
    ∧ (CopyError.samePath p p).message =
        "Source and destination cannot be the same." := by
  constructor
  · simp [copy, copyCore, validate]
  · rfl

/-- C3: for every source path and every destination canonically a strict
descendant of it, the copy fails with DestinationIsSubdirectoryOfSource,
carrying the exact message naming both paths, and the filesystem at the
moment of failure is the untouched input (the rejection happens before any
write, so the destination is not created). -/
theorem copy_subdir_rejected (now : Nat) (s d : Path) (opts : CopyOptions)
    (fs : FsTree) (h : isUnder s d = true) :
    copy now s d opts fs = .err (.destinationIsSubdirectoryOfSource s d) fs
    ∧ (CopyError.destinationIsSubdirectoryOfSource s d).message =
        "Cannot copy '" ++ s.render ++ "' to a subdirectory of itself, '"
          ++ d.render ++ "'." := by
  have hne : s ≠ d := by
    intro he
    subst he
    rw [isUnder_irrefl] at h
    exact Bool.noConfusion h
  constructor
  · simp [copy, copyCore, validate, hne, h]
  · rfl

/-- C5: copying a directory onto an existing non-directory destination fails
with TypeMismatch, carrying the exact message "Cannot overwrite
non-directory '<dest>' with directory '<src>'.", and the filesystem at the
moment of failure is the untouched input (the destination entry keeps its
content). -/
theorem copy_dir_onto_nondir_mismatch (now : Nat) (s d : Path)
    (opts : CopyOptions) (fs ex : FsTree) (es : List (String × FsTree))
    (hval : validate s d = none)
    (hsrc : fs.lookup s = some (.dir es))
    (hdst : fs.lookup d = some ex)
    (hkind : ex.kind ≠ .directory) :
    copy now s d opts fs = .err (.typeMismatch s d true) fs
    ∧ (CopyError.typeMismatch s d true).message =
        "Cannot overwrite non-directory '" ++ d.render ++
          "' with directory '" ++ s.render ++ "'." := by
  constructor
  · simp only [copy, copyCore, hval, hsrc, copyNode,
      checkDest_mismatch_dir fs s d opts ex hdst hkind]
  · rfl

/-- C9: the blocking entry point copySync and the suspending entry point
copy are two adapters over the one sequential algorithm, so on every
source, destination, options and filesystem they produce identical
outcomes: the same success or failure, the same error and message, and the
same resulting filesystem. -/
theorem copySync_eq_copy (now : Nat) (src dest : Path) (opts : CopyOptions)
    (fs : FsTree) :
    copySync now src dest opts fs = copy now src dest opts fs := rfl

/-- C6 (amended): when the destination exists and the overwrite option is
false, the copy fails with AlreadyExists carrying the exact message naming
the destination — except in the one case where the source is a directory
and the existing destination is not a directory, where TypeMismatch takes
precedence (as the repository's tests require). -/
theorem overwrite_policy_already_exists (now : Nat) (s d : Path)
    (opts : CopyOptions) (fs srcNode destNode : FsTree)
    (hval : validate s d = none)
    (hsrc : fs.lookup s = some srcNode)
    (hdst : fs.lookup d = some destNode)
    (hov : opts.overwrite = false)
    (hmm : ¬(srcNode.kind = .directory ∧ destNode.kind ≠ .directory)) :
    copy now s d opts fs = .err (.alreadyExists d) fs
    ∧ (CopyError.alreadyExists d).message =
        "'" ++ d.render ++ "' already exists." := by
  refine ⟨?_, rfl⟩
  cases srcNode with
  | file c a m =>
      simp only [copy, copyCore, hval, hsrc, copyNode,
        checkDest_exists fs s d .file opts destNode hdst hov (by simp)]
  | symlink tg =>
      simp only [copy, copyCore, hval, hsrc, copyNode,
        checkDest_exists fs s d .symlink opts destNode hdst hov (by simp)]
  | dir es =>
      have hdk : destNode.kind = .directory := by
        by_contra hc
        exact hmm ⟨rfl, hc⟩
      simp only [copy, copyCore, hval, hsrc, copyNode,
        checkDest_exists fs s d .directory opts destNode hdst hov
          (by simp [hdk])]

/-- C10 (amended): whenever the source and destination paths are
incomparable — neither is an ancestor of the other, which holds in every
run except the self-referential case where the destination is a strict
ancestor of the source — the source entry resolves identically before and
after the run, whether the copy succeeds or fails: the copy never moves,
truncates or modifies its source. -/
theorem copy_source_intact (now : Nat) (src dest : Path)
    (opts : CopyOptions) (fs : FsTree) (h : incomp src dest = true) :
    ((copy now src dest opts fs).stateOf).lookup src = fs.lookup src := by
  simp only [copy, copyCore]
  cases hv : validate src dest with
  | some e => simp [hv, CResult.stateOf]
  | none =>
      simp only [hv]
      cases hs : fs.lookup src with
      | none => simp [hs, CResult.stateOf]
      | some node =>
          simp only [hs]
          exact (copyNode_frame node src dest opts now fs src h).trans hs

/-- C2: copying a regular file to an absent destination (whose parent
directory exists) succeeds and makes the destination content byte-equal to
the source content, leaving the source untouched; a second copy onto the
now-existing destination without the overwrite option fails with
AlreadyExists carrying the exact message naming the destination and
changes nothing; after the destination is manually overwritten with other
content, a copy with the overwrite option succeeds and replaces the
destination content exactly with the source content. -/
theorem copy_file_spec (now now₂ now₃ : Nat) (src dest : Path) (fs : FsTree)
    (c c₂ : String) (a m a₂ m₂ : Nat) (ds0 : List (String × FsTree))
    (hval : validate src dest = none)
    (hsrc : fs.lookup src = some (.file c a m))
    (hfresh : fs.lookup dest = none)
    (hne : dest ≠ [])
    (hpar : fs.lookup dest.dropLast = some (.dir ds0)) :
    ∃ fs₁, copy now src dest {} fs = .ok fs₁
      ∧ fs₁.lookup dest = some (.file c now now)
      ∧ fs₁.lookup src = some (.file c a m)
      ∧ copy now₂ src dest {} fs₁ = .err (.alreadyExists dest) fs₁
      ∧ (CopyError.alreadyExists dest).message =
          "'" ++ dest.render ++ "' already exists."
      ∧ ∃ fs₂, fs₁.set dest (.file c₂ a₂ m₂) = some fs₂
        ∧ ∃ fs₃, copy now₃ src dest ⟨true, false⟩ fs₂ = .ok fs₃
          ∧ fs₃.lookup dest = some (.file c now₃ now₃)
          ∧ fs₃.lookup src = some (.file c a m) := by
  have hinc := incomp_of_validate_fresh src dest fs _ hval hsrc hfresh
  have hready : destReady fs dest (.file c a m) ({} : CopyOptions) := by
    unfold destReady
    rw [hfresh]
    exact ⟨hne, ds0, hpar⟩
  obtain ⟨fs₁, hset1, hcn1⟩ := copyNode_correct (.file c a m)
    (by simp [wfB]) src dest {} now fs hval hready
  rw [hfresh] at hset1
  have hct : copyTarget (CopyOptions.mk false false).preserveTimestamps now
      (.file c a m) none = .file c now now := by
    simp [copyTarget, stamp]
  rw [hct] at hset1
  have hcopy1 : copy now src dest {} fs = .ok fs₁ := by
    simp only [copy, copyCore, hval, hsrc]
    exact hcn1
  have hld : fs₁.lookup dest = some (.file c now now) :=
    set_lookup_self dest fs fs₁ _ hset1
  have hls : fs₁.lookup src = some (.file c a m) := by
    rw [set_frame dest fs fs₁ _ src hset1 hinc]
    exact hsrc
  have hcopy2 : copy now₂ src dest {} fs₁ =
      .err (.alreadyExists dest) fs₁ := by
    simp only [copy, copyCore, hval, hls, copyNode,
      checkDest_exists fs₁ src dest .file {} _ hld rfl (by simp)]
  obtain ⟨fs₂, hset2⟩ := set_of_lookup_some dest fs₁ _ (.file c₂ a₂ m₂) hld
  have hld2 : fs₂.lookup dest = some (.file c₂ a₂ m₂) :=
    set_lookup_self dest fs₁ fs₂ _ hset2
  have hls2 : fs₂.lookup src = some (.file c a m) := by
    rw [set_frame dest fs₁ fs₂ _ src hset2 hinc]
    exact hls
  have hready3 : destReady fs₂ dest (.file c a m)
      (CopyOptions.mk true false) := by
    unfold destReady
    rw [hld2]
    exact ⟨by simp [compatB], rfl⟩
  obtain ⟨fs₃, hset3, hcn3⟩ := copyNode_correct (.file c a m)
    (by simp [wfB]) src dest ⟨true, false⟩ now₃ fs₂ hval hready3
  rw [hld2] at hset3
  have hct3 : copyTarget (CopyOptions.mk true false).preserveTimestamps now₃
      (.file c a m) (some (.file c₂ a₂ m₂)) = .file c now₃ now₃ := by
    simp [copyTarget, overlay, stamp]
  rw [hct3] at hset3
  refine ⟨fs₁, hcopy1, hld, hls, hcopy2, rfl, fs₂, hset2, fs₃, ?_,
    set_lookup_self dest fs₂ fs₃ _ hset3, ?_⟩
  · simp only [copy, copyCore, hval, hls2]
    exact hcn3
  · rw [set_frame dest fs₂ fs₃ _ src hset3 hinc]
    exact hls2

/-- C7: copying a source that is a symbolic link — whatever its raw target
string is, including targets that are directories or do not exist at all —
produces at the destination a new entry that is itself a symbolic link
(classified Symlink by the un-followed lstat classification, never a copy
of the target's content) whose raw target string equals the original
link's, and the source link remains untouched. -/
theorem copy_symlink_spec (now : Nat) (src dest : Path) (fs : FsTree)
    (tg : String) (opts : CopyOptions) (ds0 : List (String × FsTree))
    (hval : validate src dest = none)
    (hsrc : fs.lookup src = some (.symlink tg))
    (hfresh : fs.lookup dest = none)
    (hne : dest ≠ [])
    (hpar : fs.lookup dest.dropLast = some (.dir ds0)) :
    ∃ fs₁, copy now src dest opts fs = .ok fs₁
      ∧ fs₁.lookup dest = some (.symlink tg)
      ∧ (FsTree.symlink tg).kind = .symlink
      ∧ fs₁.lookup src = some (.symlink tg) := by
  have hinc := incomp_of_validate_fresh src dest fs _ hval hsrc hfresh
  have hready : destReady fs dest (.symlink tg) opts := by
    unfold destReady
    rw [hfresh]
    exact ⟨hne, ds0, hpar⟩
  obtain ⟨fs₁, hset1, hcn1⟩ := copyNode_correct (.symlink tg)
    (by simp [wfB]) src dest opts now fs hval hready
  rw [hfresh] at hset1
  have hct : copyTarget opts.preserveTimestamps now (.symlink tg) none =
      .symlink tg := by
    simp [copyTarget, stamp]
  rw [hct] at hset1
  refine ⟨fs₁, ?_, set_lookup_self dest fs fs₁ _ hset1, rfl, ?_⟩
  · simp only [copy, copyCore, hval, hsrc]
    exact hcn1
  · rw [set_frame dest fs fs₁ _ src hset1 hinc]
    exact hsrc

/-- C8: a file copy invoked with the preserve-timestamps option set leaves
at the destination a file whose access time and modification time are, as
a pair, exactly the source file's recorded pair (and whose content is the
source's). -/
theorem copy_preserve_timestamps (now : Nat) (src dest : Path) (fs : FsTree)
    (c : String) (a m : Nat) (opts : CopyOptions)
    (ds0 : List (String × FsTree))
    (hpts : opts.preserveTimestamps = true)
    (hval : validate src dest = none)
    (hsrc : fs.lookup src = some (.file c a m))
    (hfresh : fs.lookup dest = none)
    (hne : dest ≠ [])
    (hpar : fs.lookup dest.dropLast = some (.dir ds0)) :
    ∃ fs₁, copy now src dest opts fs = .ok fs₁
      ∧ fs₁.lookup dest = some (.file c a m) := by
  have hready : destReady fs dest (.file c a m) opts := by
    unfold destReady
    rw [hfresh]
    exact ⟨hne, ds0, hpar⟩
  obtain ⟨fs₁, hset1, hcn1⟩ := copyNode_correct (.file c a m)
    (by simp [wfB]) src dest opts now fs hval hready
  rw [hfresh] at hset1
  have hct : copyTarget opts.preserveTimestamps now (.file c a m) none =
      .file c a m := by
    simp [copyTarget, stamp, hpts]
  rw [hct] at hset1
  refine ⟨fs₁, ?_, set_lookup_self dest fs fs₁ _ hset1⟩
  simp only [copy, copyCore, hval, hsrc]
  exact hcn1

/-- C1: copying a well-formed source directory to an absent destination
(whose parent directory exists) succeeds and reproduces the source subtree
at the destination — same structure, same byte content, same symlink
targets, with file timestamps freshly stamped — while every path
incomparable with the destination resolves exactly as before; re-running
the copy with the overwrite option onto any state where the destination
exists as a kind-compatible directory succeeds and leaves at the
destination the overlay of the source onto the existing destination tree:
colliding entries are replaced by the copied source entries (so entries
whose content had changed are updated), destination entries whose name
does not occur in the source listing survive untouched, and nothing
outside the destination subtree is deleted or altered. -/
theorem copy_directory_spec (now : Nat) (src dest : Path) (fs : FsTree)
    (es ds0 : List (String × FsTree))
    (hwf : wfB (.dir es) = true)
    (hval : validate src dest = none)
    (hsrc : fs.lookup src = some (.dir es))
    (hfresh : fs.lookup dest = none)
    (hne : dest ≠ [])
    (hpar : fs.lookup dest.dropLast = some (.dir ds0)) :
    (∃ fs₁, copy now src dest {} fs = .ok fs₁
       ∧ fs₁.lookup dest = some (stamp false now (.dir es))
       ∧ stamp false 0 (stamp false now (.dir es)) = stamp false 0 (.dir es)
       ∧ (∀ q, incomp q dest = true → fs₁.lookup q = fs.lookup q))
    ∧ (∀ (now₂ : Nat) (fs₂ : FsTree) (ds : List (String × FsTree)),
         fs₂.lookup src = some (.dir es) →
         fs₂.lookup dest = some (.dir ds) →
         compatEntriesB es ds = true →
         ∃ fs₃, copy now₂ src dest ⟨true, false⟩ fs₂ = .ok fs₃
           ∧ fs₃.lookup dest = some (.dir (overlayEntries false now₂ es ds))
           ∧ (∀ n, hasKey es n = false →
               lookupEntry (overlayEntries false now₂ es ds) n
                 = lookupEntry ds n)
           ∧ (∀ q, incomp q dest = true → fs₃.lookup q = fs₂.lookup q)) := by
  constructor
  · have hready : destReady fs dest (.dir es) ({} : CopyOptions) := by
      unfold destReady
      rw [hfresh]
      exact ⟨hne, ds0, hpar⟩
    obtain ⟨fs₁, hset1, hcn1⟩ := copyNode_correct (.dir es) hwf src dest {}
      now fs hval hready
    rw [hfresh] at hset1
    have hct : copyTarget (CopyOptions.mk false false).preserveTimestamps
        now (.dir es) none = stamp false now (.dir es) := by
      simp [copyTarget]
    rw [hct] at hset1
    refine ⟨fs₁, ?_, set_lookup_self dest fs fs₁ _ hset1,
      stamp_shape 0 false now (.dir es),
      fun q hq => set_frame dest fs fs₁ _ q hset1 hq⟩
    simp only [copy, copyCore, hval, hsrc]
    exact hcn1
  · intro now₂ fs₂ ds hsrc2 hdst2 hcompat
    have hready2 : destReady fs₂ dest (.dir es)
        (CopyOptions.mk true false) := by
      unfold destReady
      rw [hdst2]
      refine ⟨?_, rfl⟩
      simp only [compatB]
      exact hcompat
    obtain ⟨fs₃, hset3, hcn3⟩ := copyNode_correct (.dir es) hwf src dest
      ⟨true, false⟩ now₂ fs₂ hval hready2
    rw [hdst2] at hset3
    have hct3 : copyTarget (CopyOptions.mk true false).preserveTimestamps
        now₂ (.dir es) (some (.dir ds)) =
          .dir (overlayEntries false now₂ es ds) := by
      simp [copyTarget, overlay]
    rw [hct3] at hset3
    refine ⟨fs₃, ?_, set_lookup_self dest fs₂ fs₃ _ hset3,
      fun n hn => overlayEntries_preserves_missing false now₂ es ds n hn,
      fun q hq => set_frame dest fs₂ fs₃ _ q hset3 hq⟩
    simp only [copy, copyCore, hval, hsrc2]
    exact hcn3

/-- C6 counterexample: with the overwrite option off, copying the directory
tmp onto the existing plain file testdata/copy_file.txt fails with
TypeMismatch, not with AlreadyExists — refuting the claim that every
collision without the overwrite option yields AlreadyExists. -/
theorem overwrite_policy_counterexample :
    (copy 0 ["tmp"] ["testdata", "copy_file.txt"] {} testFs).errorOf
        = some (.typeMismatch ["tmp"] ["testdata", "copy_file.txt"] true)
    ∧ CopyError.typeMismatch ["tmp"] ["testdata", "copy_file.txt"] true ≠
        CopyError.alreadyExists ["testdata", "copy_file.txt"] := by
  constructor
  · simp [copy, copyCore, validate, isUnder, pathLe, testFs, FsTree.lookup,
      lookupEntry, copyNode, checkDestination, FsTree.kind, CResult.errorOf]
  · decide

/-- C10 counterexample: copying the directory a onto the root with the
overwrite option succeeds, yet modifies its own source: a, which contains
an entry named a, gains a child x that it did not have before the copy —
refuting the claim that every successful copy leaves the source entry
fully intact. -/
theorem source_modified_counterexample :
    copy 7 ["a"] [] ⟨true, false⟩ selfFs =
      .ok (.dir [("a", .dir [("a", .dir [("x", .file "v" 0 0)]),
        ("x", .file "v" 7 7)])])
    ∧ selfFs.lookup ["a", "x"] = none
    ∧ (FsTree.dir [("a", .dir [("a", .dir [("x", .file "v" 0 0)]),
        ("x", .file "v" 7 7)])]).lookup ["a", "x"] =
          some (.file "v" 7 7) := by
  refine ⟨?_, rfl, rfl⟩
  simp [copy, copyCore, validate, isUnder, pathLe, selfFs, FsTree.lookup,
    lookupEntry, copyNode, copyEntries, checkDestination, FsTree.kind,
    FsTree.set, setEntry, FsTree.mkdirp]

/-! Witnesses: the hypothesized claim theorems applied at concrete
inputs drawn from the repository's test data. -/

theorem copy_directory_spec_witness :
    (∃ fs₁, copy 5 ["testdata", "copy_dir"] ["tmp", "copy_dir"] {} testFs
          = .ok fs₁
       ∧ fs₁.lookup ["tmp", "copy_dir"] =
           some (stamp false 5 (.dir copyDirEntries))
       ∧ stamp false 0 (stamp false 5 (.dir copyDirEntries)) =
           stamp false 0 (.dir copyDirEntries)
       ∧ (∀ q, incomp q ["tmp", "copy_dir"] = true →
           fs₁.lookup q = testFs.lookup q))
    ∧ (∀ (now₂ : Nat) (fs₂ : FsTree) (ds : List (String × FsTree)),
         fs₂.lookup ["testdata", "copy_dir"] = some (.dir copyDirEntries) →
         fs₂.lookup ["tmp", "copy_dir"] = some (.dir ds) →
         compatEntriesB copyDirEntries ds = true →
         ∃ fs₃, copy now₂ ["testdata", "copy_dir"] ["tmp", "copy_dir"]
             ⟨true, false⟩ fs₂ = .ok fs₃
           ∧ fs₃.lookup ["tmp", "copy_dir"] =
               some (.dir (overlayEntries false now₂ copyDirEntries ds))
           ∧ (∀ n, hasKey copyDirEntries n = false →
               lookupEntry (overlayEntries false now₂ copyDirEntries ds) n
                 = lookupEntry ds n)
           ∧ (∀ q, incomp q ["tmp", "copy_dir"] = true →
               fs₃.lookup q = fs₂.lookup q)) :=
  copy_directory_spec 5 ["testdata", "copy_dir"] ["tmp", "copy_dir"] testFs
    copyDirEntries []
    (by simp [copyDirEntries, wfB, wfEntries, nodupKeys, hasKey])
    (by decide) rfl rfl (by decide) rfl

theorem copy_file_spec_witness :
    ∃ fs₁, copy 5 ["testdata", "copy_file.txt"] ["tmp", "copy_file_copy.txt"]
        {} testFs = .ok fs₁
      ∧ fs₁.lookup ["tmp", "copy_file_copy.txt"] = some (.file "txt" 5 5)
      ∧ fs₁.lookup ["testdata", "copy_file.txt"] = some (.file "txt" 1 2)
      ∧ copy 6 ["testdata", "copy_file.txt"] ["tmp", "copy_file_copy.txt"]
          {} fs₁ = .err (.alreadyExists ["tmp", "copy_file_copy.txt"]) fs₁
      ∧ (CopyError.alreadyExists ["tmp", "copy_file_copy.txt"]).message =
          "'" ++ Path.render ["tmp", "copy_file_copy.txt"]
            ++ "' already exists."
      ∧ ∃ fs₂, fs₁.set ["tmp", "copy_file_copy.txt"]
            (.file "txt copy" 9 9) = some fs₂
        ∧ ∃ fs₃, copy 7 ["testdata", "copy_file.txt"]
              ["tmp", "copy_file_copy.txt"] ⟨true, false⟩ fs₂ = .ok fs₃
          ∧ fs₃.lookup ["tmp", "copy_file_copy.txt"] =
              some (.file "txt" 7 7)
          ∧ fs₃.lookup ["testdata", "copy_file.txt"] =
              some (.file "txt" 1 2) :=
  copy_file_spec 5 6 7 ["testdata", "copy_file.txt"]
    ["tmp", "copy_file_copy.txt"] testFs "txt" "txt copy" 1 2 9 9 []
    (by decide) rfl rfl (by decide) rfl

theorem copy_subdir_rejected_witness :
    isUnder ["tmp", "parent"] ["tmp", "parent", "child"] = true
    ∧ (copy 0 ["tmp", "parent"] ["tmp", "parent", "child"] {} testFs =
        .err (.destinationIsSubdirectoryOfSource ["tmp", "parent"]
          ["tmp", "parent", "child"]) testFs
      ∧ (CopyError.destinationIsSubdirectoryOfSource ["tmp", "parent"]
          ["tmp", "parent", "child"]).message =
        "Cannot copy '" ++ Path.render ["tmp", "parent"]
          ++ "' to a subdirectory of itself, '"
          ++ Path.render ["tmp", "parent", "child"] ++ "'.") :=
  ⟨by decide,
   copy_subdir_rejected 0 ["tmp", "parent"] ["tmp", "parent", "child"] {}
     testFs (by decide)⟩

theorem copy_dir_onto_nondir_mismatch_witness :
    copy 0 ["tmp"] ["testdata", "copy_file.txt"] {} testFs =
        .err (.typeMismatch ["tmp"] ["testdata", "copy_file.txt"] true)
          testFs
    ∧ (CopyError.typeMismatch ["tmp"] ["testdata", "copy_file.txt"]
        true).message =
      "Cannot overwrite non-directory '"
        ++ Path.render ["testdata", "copy_file.txt"]
        ++ "' with directory '" ++ Path.render ["tmp"] ++ "'." :=
  copy_dir_onto_nondir_mismatch 0 ["tmp"] ["testdata", "copy_file.txt"] {}
    testFs (.file "txt" 1 2) [] (by decide) rfl rfl (by decide)

theorem overwrite_policy_already_exists_witness :
    copy 0 ["testdata", "copy_file.txt"] ["testdata", "copy_dir", "0.txt"]
        {} testFs =
        .err (.alreadyExists ["testdata", "copy_dir", "0.txt"]) testFs
    ∧ (CopyError.alreadyExists ["testdata", "copy_dir", "0.txt"]).message =
        "'" ++ Path.render ["testdata", "copy_dir", "0.txt"]
          ++ "' already exists." :=
  overwrite_policy_already_exists 0 ["testdata", "copy_file.txt"]
    ["testdata", "copy_dir", "0.txt"] {} testFs (.file "txt" 1 2)
    (.file "txt" 0 0) (by decide) rfl rfl rfl (by decide)

theorem copy_symlink_spec_witness :
    ∃ fs₁, copy 5 ["testdata", "copy_dir_link_file", "0.txt"]
        ["tmp", "0_copy.txt"] {} testFs = .ok fs₁
      ∧ fs₁.lookup ["tmp", "0_copy.txt"] =
          some (.symlink "testdata/copy_dir/0.txt")
      ∧ (FsTree.symlink "testdata/copy_dir/0.txt").kind = .symlink
      ∧ fs₁.lookup ["testdata", "copy_dir_link_file", "0.txt"] =
          some (.symlink "testdata/copy_dir/0.txt") :=
  copy_symlink_spec 5 ["testdata", "copy_dir_link_file", "0.txt"]
    ["tmp", "0_copy.txt"] testFs "testdata/copy_dir/0.txt" {} []
    (by decide) rfl rfl (by decide) rfl

theorem copy_preserve_timestamps_witness :
    ∃ fs₁, copy 5 ["testdata", "copy_file.txt"] ["tmp", "copy_file_copy.txt"]
        ⟨true, true⟩ testFs = .ok fs₁
      ∧ fs₁.lookup ["tmp", "copy_file_copy.txt"] = some (.file "txt" 1 2) :=
  copy_preserve_timestamps 5 ["testdata", "copy_file.txt"]
    ["tmp", "copy_file_copy.txt"] testFs "txt" 1 2 ⟨true, true⟩ [] rfl
    (by decide) rfl rfl (by decide) rfl

theorem copy_source_intact_witness :
    incomp ["testdata", "copy_file.txt"] ["tmp", "out.txt"] = true
    ∧ ((copy 5 ["testdata", "copy_file.txt"] ["tmp", "out.txt"] {}
        testFs).stateOf).lookup ["testdata", "copy_file.txt"] =
        testFs.lookup ["testdata", "copy_file.txt"] :=
  ⟨by decide,
   copy_source_intact 5 ["testdata", "copy_file.txt"] ["tmp", "out.txt"] {}
     testFs (by decide)⟩

end Bearz
